import Mathlib

/-!
Verification of the SoloMiner core (SHA-256d solo Bitcoin miner) against its
natural-language specification.

The development shallowly embeds the relevant parts of the Python source:

* `src/solominer/metal_miner.py` — `difficulty_to_target`,
  `build_block_header`, `compute_merkle_root`, `MetalMiner.mine_range_cpu`,
  and the best-share-bits bookkeeping of `MetalMiner.mine_range_gpu`
  (the Metal shader `mine_sha256d` plus the host code that reads `results`).
* `src/solominer/engine.py` — the nonce-partitioning formula of
  `_mining_loop` and the share counters
  (`shares_submitted` / `shares_accepted` / `shares_rejected`).
* `src/solominer/stratum.py` — `StratumJob.__init__` and the
  `mining.notify` branch of `StratumClient._handle_server_method`.

Bytes are modelled as `Nat` (values `< 256`), byte strings as `List Nat`,
hex strings as `List Char`, 32-bit machine arithmetic as `Nat` with explicit
`% 2^32`, and the floating-point pool difficulty as an exact rational `ℚ`.
Fallible Python code (exceptions from `struct.pack`, `bytes.fromhex`,
`int(_, 16)`, the `assert`) is modelled with `Option`.
-/

namespace SoloMiner

/-! ## 32-bit word primitives (`Nat` with explicit wrap-around) -/

/-- Addition modulo `2^32`, the `uint` addition of the SHA-256 kernels. -/
def add32 (a b : Nat) : Nat := (a + b) % 4294967296

/-- 32-bit rotate right, as `rotr` in the Metal shader / standard SHA-256. -/
def rotr32 (n x : Nat) : Nat :=
  ((x >>> n) ||| ((x <<< (32 - n)) % 4294967296)) % 4294967296

/-- SHA-256 `Ch(x,y,z) = (x & y) ^ (~x & z)` on 32-bit words. -/
def ch32 (x y z : Nat) : Nat :=
  ((x &&& y) ^^^ ((x ^^^ 4294967295) &&& z)) % 4294967296

/-- SHA-256 `Maj(x,y,z) = (x & y) ^ (x & z) ^ (y & z)`. -/
def maj32 (x y z : Nat) : Nat :=
  ((x &&& y) ^^^ (x &&& z) ^^^ (y &&& z)) % 4294967296

/-- SHA-256 big sigma-0: `rotr 2 ^ rotr 13 ^ rotr 22`. -/
def bigSig0 (x : Nat) : Nat := rotr32 2 x ^^^ rotr32 13 x ^^^ rotr32 22 x

/-- SHA-256 big sigma-1: `rotr 6 ^ rotr 11 ^ rotr 25`. -/
def bigSig1 (x : Nat) : Nat := rotr32 6 x ^^^ rotr32 11 x ^^^ rotr32 25 x

/-- SHA-256 small sigma-0: `rotr 7 ^ rotr 18 ^ shr 3`. -/
def smallSig0 (x : Nat) : Nat := rotr32 7 x ^^^ rotr32 18 x ^^^ (x >>> 3)

/-- SHA-256 small sigma-1: `rotr 17 ^ rotr 19 ^ shr 10`. -/
def smallSig1 (x : Nat) : Nat := rotr32 17 x ^^^ rotr32 19 x ^^^ (x >>> 10)

/-! ## Byte/word conversions -/

/-- Little-endian 4-byte encoding of a 32-bit value:
Python's `struct.pack("<I", v)` for `v < 2^32`. -/
def pack32le (v : Nat) : List Nat :=
  [v % 256, v / 256 % 256, v / 65536 % 256, v / 16777216 % 256]

/-- Big-endian 4-byte encoding of a 32-bit value (one big-endian SHA word,
or `struct.pack(">I", v)`). -/
def pack32be (v : Nat) : List Nat :=
  [v / 16777216 % 256, v / 65536 % 256, v / 256 % 256, v % 256]

/-- Big-endian 8-byte encoding (the SHA-256 length field). -/
def pack64be (v : Nat) : List Nat :=
  pack32be (v / 4294967296) ++ pack32be (v % 4294967296)

/-- Interpret a byte list as a big-endian integer (SHA-256 word load). -/
def beNat (l : List Nat) : Nat := l.foldl (fun acc b => acc * 256 + b) 0

/-- Interpret a byte list as a little-endian integer — Bitcoin's
"LE uint256" reading of a 32-byte hash (`int.from_bytes(h, "little")`). -/
def leNat : List Nat → Nat
  | [] => 0
  | b :: rest => b + 256 * leNat rest

/-- Split a list into consecutive chunks of `k` elements (fuel variant). -/
def chunksAux (k : Nat) : Nat → List Nat → List (List Nat)
  | 0, _ => []
  | _, [] => []
  | fuel + 1, l => l.take k :: chunksAux k fuel (l.drop k)

/-- Split a list into consecutive chunks of `k` elements. -/
def chunks (k : Nat) (l : List Nat) : List (List Nat) := chunksAux k l.length l

/-! ## SHA-256 (the standard function: Python's `hashlib.sha256` and the
~100-line SHA-256 core of the Metal shader compute this same function) -/

/-- The 64 SHA-256 round constants `K`. -/
def shaK : List Nat :=
  [1116352408, 1899447441, 3049323471, 3921009573, 961987163,
   1508970993, 2453635748, 2870763221, 3624381080, 310598401,
   607225278, 1426881987, 1925078388, 2162078206, 2614888103,
   3248222580, 3835390401, 4022224774, 264347078, 604807628,
   770255983, 1249150122, 1555081692, 1996064986, 2554220882,
   2821834349, 2952996808, 3210313671, 3336571891, 3584528711,
   113926993, 338241895, 666307205, 773529912, 1294757372,
   1396182291, 1695183700, 1986661051, 2177026350, 2456956037,
   2730485921, 2820302411, 3259730800, 3345764771, 3516065817,
   3600352804, 4094571909, 275423344, 430227734, 506948616,
   659060556, 883997877, 958139571, 1322822218, 1537002063,
   1747873779, 1955562222, 2024104815, 2227730452, 2361852424,
   2428436474, 2756734187, 3204031479, 3329325298]

/-- The SHA-256 initial hash state. -/
def shaInit : List Nat :=
  [1779033703, 3144134277, 1013904242, 2773480762,
   1359893119, 2600822924, 528734635, 1541459225]

/-- Extend the message schedule by one word:
`W[i] = smallSig1 W[i-2] + W[i-7] + smallSig0 W[i-15] + W[i-16]`. -/
def scheduleStep (w : List Nat) : List Nat :=
  w ++ [add32 (add32 (smallSig1 (w.getD (w.length - 2) 0)) (w.getD (w.length - 7) 0))
          (add32 (smallSig0 (w.getD (w.length - 15) 0)) (w.getD (w.length - 16) 0))]

/-- Iterate a function `n` times. -/
def iterN (f : List Nat → List Nat) : Nat → List Nat → List Nat
  | 0, a => a
  | n + 1, a => iterN f n (f a)

/-- The full 64-word message schedule from a 16-word block. -/
def schedule (block : List Nat) : List Nat := iterN scheduleStep 48 block

/-- One SHA-256 compression round on the 8-word working state; `kw` is
`K[i] + W[i]`. -/
def shaRound (st : List Nat) (kw : Nat) : List Nat :=
  match st with
  | [a, b, c, d, e, f, g, h] =>
      let t1 := add32 (add32 h (bigSig1 e)) (add32 (ch32 e f g) kw)
      let t2 := add32 (bigSig0 a) (maj32 a b c)
      [add32 t1 t2, a, b, c, add32 d t1, e, f, g]
  | other => other

/-- The SHA-256 compression function on one 16-word block. -/
def shaTransform (st block : List Nat) : List Nat :=
  let kw := List.zipWith add32 shaK (schedule block)
  List.zipWith add32 st (kw.foldl shaRound st)

/-- SHA-256 padding: append `0x80`, zeros to 56 mod 64, and the bit length
as a big-endian 64-bit integer. -/
def shaPad (msg : List Nat) : List Nat :=
  msg ++ 128 :: List.replicate ((119 - msg.length % 64) % 64) 0
    ++ pack64be (8 * msg.length)

/-- SHA-256 of a byte string, producing the 32-byte digest. -/
def sha256 (msg : List Nat) : List Nat :=
  let blocks := chunks 16 ((chunks 4 (shaPad msg)).map beNat)
  (blocks.foldl shaTransform shaInit).flatMap pack32be

/-- Double SHA-256, Bitcoin's proof-of-work hash. -/
def sha256d (msg : List Nat) : List Nat := sha256 (sha256 msg)

/-! ## Hex strings

Python's `int(s, 16)` and `bytes.fromhex(s)` restricted to plain strings of
hexadecimal digits (the only shapes Stratum job fields take); failure
(empty / non-hex / odd length) is `none`, modelling the raised exception. -/

/-- Value of one hexadecimal digit character, `none` if not a hex digit. -/
def hexDigitVal? (c : Char) : Option Nat :=
  let n := c.toNat
  if 48 ≤ n ∧ n ≤ 57 then some (n - 48)
  else if 97 ≤ n ∧ n ≤ 102 then some (n - 87)
  else if 65 ≤ n ∧ n ≤ 70 then some (n - 55)
  else none

/-- Accumulating loop of `parseHexNat?`. -/
def parseHexAux : List Char → Nat → Option Nat
  | [], acc => some acc
  | c :: t, acc =>
      match hexDigitVal? c with
      | none => none
      | some d => parseHexAux t (16 * acc + d)

/-- `int(s, 16)` on a plain hex-digit string: `none` on empty or non-hex. -/
def parseHexNat? (l : List Char) : Option Nat :=
  match l with
  | [] => none
  | _ => parseHexAux l 0

/-- `bytes.fromhex`: pairs of hex digits to bytes; `none` on odd length or
a non-hex character. -/
def hexPairs? : List Char → Option (List Nat)
  | [] => some []
  | [_] => none
  | a :: b :: rest =>
      match hexDigitVal? a, hexDigitVal? b, hexPairs? rest with
      | some da, some db, some r => some ((16 * da + db) :: r)
      | _, _, _ => none

/-- Lowercase hex character of a digit `< 16`. -/
def hexChar (d : Nat) : Char :=
  if d < 10 then Char.ofNat (48 + d) else Char.ofNat (87 + d)

/-- Lowercase hex rendering of a byte string, Python's `bytes.hex()`. -/
def toHexChars (l : List Nat) : List Char :=
  l.flatMap (fun b => [hexChar (b / 16), hexChar (b % 16)])

/-! ## Header Builder (`metal_miner.build_block_header`,
`metal_miner.compute_merkle_root`) -/

/-- `struct.pack("<I", v)`: fails (raises `struct.error`) for `v ≥ 2^32`. -/
def pack32le? (v : Nat) : Option (List Nat) :=
  if v < 4294967296 then some (pack32le v) else none

/-- The stratum `prevhash` byte-order fix of `build_block_header`:
`for i in range(0, 32, 4): prev_fixed += prev_bytes[i:i+4][::-1]` —
eight consecutive 4-byte groups, each reversed. -/
def prevFixAux : Nat → List Nat → List Nat
  | 0, _ => []
  | n + 1, l => (l.take 4).reverse ++ prevFixAux n (l.drop 4)

/-- The eight-group byte-order fix applied by `build_block_header`. -/
def prevFix (l : List Nat) : List Nat := prevFixAux 8 l

/-- `metal_miner.build_block_header`: assemble the 80-byte block header from
stratum job fields. `none` models any raised exception (bad hex, a packed
value `≥ 2^32`, or the final `assert len(header) == 80` failing). -/
def build_block_header (version prevhash merkle_root ntime nbits : List Char)
    (nonce : Nat) : Option (List Nat) := do
  let vNum ← parseHexNat? version
  let ver ← pack32le? vNum
  let prevBytes ← hexPairs? prevhash
  let prevFixed := prevFix prevBytes
  let mrBytes ← hexPairs? merkle_root
  let tNum ← parseHexNat? ntime
  let timeBytes ← pack32le? tNum
  let bNum ← parseHexNat? nbits
  let bitsBytes ← pack32le? bNum
  let nonceBytes ← pack32le? nonce
  let header := ver ++ prevFixed ++ mrBytes ++ timeBytes ++ bitsBytes ++ nonceBytes
  if header.length = 80 then some header else none

/-- The branch fold of `compute_merkle_root`:
`for branch_hex in merkle_branch: current = sha256d(current + fromhex(branch_hex))`. -/
def merkleFold (cur : List Nat) : List (List Char) → Option (List Nat)
  | [] => some cur
  | b :: rest =>
      match hexPairs? b with
      | none => none
      | some bb => merkleFold (sha256d (cur ++ bb)) rest

/-- `metal_miner.compute_merkle_root`: coinbase hash then branch fold, all
arguments and the result as hex strings. -/
def compute_merkle_root (coinb1 coinb2 extranonce1 extranonce2 : List Char)
    (merkle_branch : List (List Char)) : Option (List Char) := do
  let coinbase ← hexPairs? (coinb1 ++ extranonce1 ++ extranonce2 ++ coinb2)
  let final ← merkleFold (sha256d coinbase) merkle_branch
  return toHexChars final

/-! ## Search Kernel (`metal_miner.MetalMiner`) -/

/-- The mutable per-miner state touched by `mine_range_cpu` /
`mine_range_gpu`: the `_hashcount` counter and `best_share_bits`. -/
structure MinerState where
  hashcount : Nat
  best_share_bits : Nat
  deriving DecidableEq, Repr

/-- The loop of `MetalMiner.mine_range_cpu`
(`for n in range(count): nonce = (base_nonce + n) & 0xFFFFFFFF; ...`),
returning the winning nonce together with its loop index `n`.
`fuel` is the number of iterations left, `n` the current index. -/
def cpuSearch (header : List Nat) (target base : Nat) :
    Nat → Nat → Option (Nat × Nat)
  | _, 0 => none
  | n, fuel + 1 =>
      let nonce := (base + n) % 4294967296
      if leNat (sha256d (header.take 76 ++ pack32le nonce)) < target then
        some (nonce, n)
      else
        cpuSearch header target base (n + 1) fuel

/-- `MetalMiner.mine_range_cpu`: serial CPU sweep of `count` nonces starting
at `base_nonce`, first winner returned; `_hashcount` is advanced by the
number of nonces evaluated and `best_share_bits` is not touched. -/
def mine_range_cpu (st : MinerState) (header : List Nat)
    (target base count : Nat) : Option Nat × MinerState :=
  match cpuSearch header target base 0 count with
  | some (nonce, n) => (some nonce, { st with hashcount := st.hashcount + n + 1 })
  | none => (none, { st with hashcount := st.hashcount + count })

/-- Bit length of a value, with fuel (32 suffices for 32-bit words). -/
def bitLen : Nat → Nat → Nat
  | 0, _ => 0
  | fuel + 1, v => if v = 0 then 0 else bitLen fuel (v / 2) + 1

/-- Leading-zero count of a 32-bit word (`clz` in the Metal shader). -/
def clz32 (w : Nat) : Nat := 32 - bitLen 32 w

/-- The shader's best-share loop: walk the eight LE-convention words of the
hash most-significant first, adding 32 per zero word and `clz` of the first
non-zero word. -/
def lzWords : List Nat → Nat
  | [] => 0
  | w :: ws => if w = 0 then 32 + lzWords ws else clz32 w

/-- Leading-zero-bit count of a 32-byte digest interpreted as a Bitcoin LE
uint256, exactly as the shader computes it: word `i` is
`swap32(state[7-i])`, i.e. the big-endian reading of the reversed digest. -/
def hashLZ (digest : List Nat) : Nat :=
  lzWords ((chunks 4 digest.reverse).map beNat)

/-- The `best_share_bits` outcome of `MetalMiner.mine_range_gpu`.

The host clamps `count` to `0xFFFFFFFF - base_nonce + 1`; the shader hashes,
for each thread id `gid < count`, the 80 bytes whose big-endian word 19 is
the uint `base_nonce + gid` — that is, `header[0:76]` followed by the
big-endian bytes of the nonce word — and folds the per-thread leading-zero
counts through the lock-free max in `results[2]`; the host then raises
`best_share_bits` to `results[2]` if it is larger. -/
def mine_range_gpu_best (st : MinerState) (header : List Nat)
    (base count : Nat) : Nat :=
  let b := base % 4294967296
  let c := min count (4294967296 - b)
  let zs := (List.range c).map (fun gid =>
    hashLZ (sha256d (header.take 76 ++ pack32be ((b + gid) % 4294967296))))
  let bestZeros := zs.foldl max 0
  if st.best_share_bits < bestZeros then bestZeros else st.best_share_bits

/-! ## Share target (`metal_miner.difficulty_to_target`)

The pool difficulty reaches the function as a Python float and
`DIFF1_TARGET / difficulty` is IEEE-double division, whose rounded quotient
generally differs from the exact one (and overflows to `inf`, raising
`OverflowError` in `int`, for denormal-tiny positive difficulties).  The
embedding therefore separates two things.  `clamp_target` captures the
branch structure the code applies to the *truncated quotient*, whatever
value the float division produced; statements about it hold for every
rounding.  `difficulty_to_target` additionally idealises the division as
exact rational division; it is used only where the statement is insensitive
to that idealisation: the `difficulty ≤ 0` branch (no division at all), the
bound `< 2^256` (which follows from the clamp structure alone), and
evaluation at `difficulty = 2^250` and `1` (dyadic points at which the IEEE
quotient is exact). -/

/-- Bitcoin's difficulty-1 target, `metal_miner.DIFF1_TARGET`. -/
def DIFF1_TARGET : Nat :=
  0x00000000FFFF0000000000000000000000000000000000000000000000000000

/-- The clamp applied by `metal_miner.difficulty_to_target` on its positive
branch, abstracted over the truncated float quotient `q =
int(DIFF1_TARGET / difficulty)`: `q` clamped from above to `2^256 - 1`,
with no clamp from below. -/
def clamp_target (q : Nat) : Nat :=
  if 2 ^ 256 ≤ q then 2 ^ 256 - 1 else q

/-- `metal_miner.difficulty_to_target`: `(1 << 256) - 1` for non-positive
difficulty, otherwise `int(DIFF1_TARGET / difficulty)` clamped from above
to `2^256 - 1` (there is no clamp from below).  The float division is
idealised as exact rational division here (see the section comment). -/
def difficulty_to_target (difficulty : ℚ) : Nat :=
  if difficulty ≤ 0 then 2 ^ 256 - 1
  else
    let target := (⌊(DIFF1_TARGET : ℚ) / difficulty⌋).toNat
    if 2 ^ 256 ≤ target then 2 ^ 256 - 1 else target

/-- Modelled from the spec: the share target as the specification words it —
`DIFF1_TARGET / difficulty` clamped to `[1, 2^256 - 1]` — for comparison
with `difficulty_to_target`. -/
def spec_share_target (difficulty : ℚ) : Nat :=
  max 1 (min ((⌊(DIFF1_TARGET : ℚ) / difficulty⌋).toNat) (2 ^ 256 - 1))

/-! ## Engine nonce partitioning (`engine.MiningEngine._mining_loop`) -/

/-- `partition_size = 0xFFFFFFFF // n_threads` from `_mining_loop` (note:
`0xFFFFFFFF`, not `2^32`). -/
def partition_size (nThreads : Nat) : Nat := 4294967295 / nThreads

/-- The worker's starting nonce on a job switch:
`(random.randint(0, partition_size) + thread_idx * partition_size) & 0xFFFFFFFF`,
where the draw `r` is inclusive of `partition_size`. -/
def nonce_start (nThreads threadIdx r : Nat) : Nat :=
  (r + threadIdx * partition_size nThreads) % 4294967296

/-! ## Engine share counters (`engine.MiningEngine`)

The counter subsystem as a transition system.  Events: the counter reset in
`start()`; a share-found submission in `_mining_loop`
(`shares_submitted += 1` followed by `stratum.submit_share`, which records
a pending request id with purpose `"submit"`); and a share-result callback
(`_on_share_result`, invoked by `StratumClient._handle_response` only after
popping a pending `"submit"` id — responses with unknown ids are logged and
discarded, which is the `pending = 0` guard below).

The reset zeroes the three counters but NOT the pending count: `start()`
only zeroes `shares_*` (engine.py `start`), while a previous session's
`StratumClient` is merely disconnected — its receive thread is never
joined, its pending-request table is cleared only when a client's own
`connect()` runs `_reset_state`, and its `on_share_result` still points at
the engine — so a submit response in flight across a `stop()`/`start()`
can still be delivered and counted after the counters were reset. -/

/-- One step of the engine counter subsystem. -/
inductive CounterEv where
  | reset
  | submit
  | result (accepted : Bool)
  deriving DecidableEq, Repr

/-- Engine share counters plus the count of outstanding `"submit"` entries
in the stratum pending-request table. -/
structure Counters where
  shares_submitted : Nat
  shares_accepted : Nat
  shares_rejected : Nat
  pending_submits : Nat
  deriving DecidableEq, Repr

/-- Transition function of the counter subsystem.  `reset` zeroes the
counters but keeps the outstanding submit entries (see the section
comment). -/
def counterStep (s : Counters) : CounterEv → Counters
  | .reset => ⟨0, 0, 0, s.pending_submits⟩
  | .submit =>
      { s with shares_submitted := s.shares_submitted + 1,
               pending_submits := s.pending_submits + 1 }
  | .result accepted =>
      if s.pending_submits = 0 then s
      else if accepted then
        { s with shares_accepted := s.shares_accepted + 1,
                 pending_submits := s.pending_submits - 1 }
      else
        { s with shares_rejected := s.shares_rejected + 1,
                 pending_submits := s.pending_submits - 1 }

/-- Run a list of counter events from the freshly constructed engine. -/
def runCounters (evs : List CounterEv) : Counters :=
  evs.foldl counterStep ⟨0, 0, 0, 0⟩

/-! ## Stratum `mining.notify` handling (`stratum.StratumJob`,
`stratum.StratumClient._handle_server_method`) -/

/-- A JSON parameter value as it appears in a `mining.notify` params array. -/
inductive JVal where
  | str (s : List Char)
  | num (n : Int)
  | bool (b : Bool)
  | arr (l : List JVal)
  | null

/-- `StratumJob._nbits_to_target` on the parsed `nbits` integer. -/
def nbits_to_target (nbits : Nat) : Nat :=
  let exponent := nbits >>> 24
  let mantissa := nbits &&& 0x007FFFFF
  if exponent ≤ 3 then mantissa >>> (8 * (3 - exponent))
  else mantissa <<< (8 * (exponent - 3))

/-- A parsed stratum job (`StratumJob.__slots__`). -/
structure StratumJob where
  job_id : JVal
  prevhash : JVal
  coinb1 : JVal
  coinb2 : JVal
  merkle_branch : JVal
  version : JVal
  nbits : JVal
  ntime : JVal
  clean_jobs : JVal
  extranonce1 : List Char
  extranonce2_size : Nat
  target : Nat

/-- `StratumJob.__init__`: raises (`none`) when fewer than 8 params, or when
`int(self.nbits, 16)` fails because params[6] is not a parseable hex
string. -/
def StratumJob.mk? (params : List JVal) (extranonce1 : List Char)
    (extranonce2_size : Nat) : Option StratumJob :=
  if params.length < 8 then none
  else
    match params.getD 6 JVal.null with
    | JVal.str nbitsHex =>
        match parseHexNat? nbitsHex with
        | none => none
        | some nb =>
            some { job_id := params.getD 0 JVal.null,
                   prevhash := params.getD 1 JVal.null,
                   coinb1 := params.getD 2 JVal.null,
                   coinb2 := params.getD 3 JVal.null,
                   merkle_branch := params.getD 4 JVal.null,
                   version := params.getD 5 JVal.null,
                   nbits := JVal.str nbitsHex,
                   ntime := params.getD 7 JVal.null,
                   clean_jobs := params.getD 8 (JVal.bool false),
                   extranonce1 := extranonce1,
                   extranonce2_size := extranonce2_size,
                   target := nbits_to_target nb }
    | _ => none

/-- Per-connection session state of `StratumClient` that the `mining.notify`
handler can observe or change. -/
structure Session where
  extranonce1 : Option (List Char)
  extranonce2_size : Nat
  difficulty : ℚ
  authorized : Bool
  jobs_before_auth : Nat

/-- Whether Python's `len()` works on the value: it does on strings and
arrays, and raises `TypeError` on numbers, booleans and `None`. -/
def hasLen : JVal → Bool
  | JVal.str _ => true
  | JVal.arr _ => true
  | _ => false

/-- The `mining.notify` branch of `StratumClient._handle_server_method`,
composed with the engine's `on_job` callback (which replaces the current
job).  Before anything is guarded by `try`, the handler computes
`branch_count = len(params[4]) if len(params) > 4 else 0` for its log line;
if `params` has more than 4 entries and `params[4]` does not support
`len()`, this raises `TypeError`, which escapes `_handle_server_method`
and is answered by the receive loop's blanket `except Exception` with
`_handle_disconnect()` — modelled as `none`.  Otherwise (`some` outcome):
requires `extranonce1` to be set, builds a `StratumJob` inside
`try/except` (a raised `ValueError` is logged and swallowed), bumps
`_jobs_before_auth` when not yet authorized, and fires `on_job`. Returns
the session state and the engine's current job after handling. -/
def handle_mining_notify (s : Session) (currentJob : Option StratumJob)
    (params : List JVal) : Option (Session × Option StratumJob) :=
  if 4 < params.length ∧ hasLen (params.getD 4 JVal.null) = false then none
  else
    some (match s.extranonce1 with
      | none => (s, currentJob)
      | some en1 =>
          match StratumJob.mk? params en1 s.extranonce2_size with
          | none => (s, currentJob)
          | some job =>
              (if s.authorized then s
               else { s with jobs_before_auth := s.jobs_before_auth + 1 },
               some job))

/-! ## Sanity check of the SHA-256 embedding against the FIPS 180 vector -/

theorem sha256_empty_vector : sha256 [] =
    [0xe3, 0xb0, 0xc4, 0x42, 0x98, 0xfc, 0x1c, 0x14,
     0x9a, 0xfb, 0xf4, 0xc8, 0x99, 0x6f, 0xb9, 0x24,
     0x27, 0xae, 0x41, 0xe4, 0x64, 0x9b, 0x93, 0x4c,
     0xa4, 0x95, 0x99, 0x1b, 0x78, 0x52, 0xb8, 0x55] := by decide

/-! ## C2 — header known-vector -/

/-- C2: on version `"00000002"`, all-zero `prev_hash`, merkle root of 32
`0x11` bytes, `n_time = "5f5e100f"`, `n_bits = "1d00ffff"`,
`nonce = 0x0000beef`, `build_block_header` returns exactly the 80 bytes
`02000000` ‖ 32 zero bytes ‖ 32 `0x11` bytes ‖ `0f105e5f` ‖ `ffff001d` ‖
`efbe0000`. -/
theorem header_known_vector :
    build_block_header (toHexChars [0, 0, 0, 2])
      (toHexChars (List.replicate 32 0))
      (toHexChars (List.replicate 32 0x11))
      (toHexChars [0x5f, 0x5e, 0x10, 0x0f])
      (toHexChars [0x1d, 0x00, 0xff, 0xff]) 0xbeef
    = some ([0x02, 0, 0, 0] ++ List.replicate 32 0 ++ List.replicate 32 0x11
        ++ [0x0f, 0x10, 0x5e, 0x5f] ++ [0xff, 0xff, 0x00, 0x1d]
        ++ [0xef, 0xbe, 0, 0]) := by decide

/-! ## C10 — difficulty_to_target on non-positive difficulty, upper bound -/

/-- C10: for every difficulty `d ≤ 0`, `difficulty_to_target d` is the
accept-everything target `2^256 - 1`, and for every difficulty the result
is strictly below `2^256`. -/
theorem difficulty_to_target_nonpos_and_bound (d : ℚ) :
    (d ≤ 0 → difficulty_to_target d = 2 ^ 256 - 1) ∧
    difficulty_to_target d < 2 ^ 256 := by
  constructor
  · intro h
    simp [difficulty_to_target, h]
  · by_cases h : d ≤ 0
    · simp [difficulty_to_target, h]
    · simp only [difficulty_to_target, if_neg h]
      split_ifs <;> omega

/-- Witness for C10 at `d = -1`. -/
theorem difficulty_to_target_nonpos_and_bound_witness :
    difficulty_to_target (-1) = 2 ^ 256 - 1 ∧
    difficulty_to_target (-1) < 2 ^ 256 :=
  ⟨(difficulty_to_target_nonpos_and_bound (-1)).1 (by norm_num),
   (difficulty_to_target_nonpos_and_bound (-1)).2⟩

/-! ## C5 — share target versus the spec's clamp to `[1, 2^256 - 1]` -/

/-- C5 counterexample: at difficulty `2^250` (an exactly representable
positive value above `DIFF1_TARGET`), `difficulty_to_target` returns `0`,
not the spec's value clamped to `[1, 2^256 - 1]` — the code has no lower
clamp. -/
theorem share_target_no_lower_clamp :
    difficulty_to_target ((2 : ℚ) ^ 250) ≠ spec_share_target ((2 : ℚ) ^ 250) := by
  have hfl : ⌊(DIFF1_TARGET : ℚ) / (2 : ℚ) ^ 250⌋ = 0 := by
    rw [Int.floor_eq_zero_iff]
    constructor
    · positivity
    · rw [div_lt_one (by positivity)]
      norm_num [DIFF1_TARGET]
  have h0 : ¬ ((2 : ℚ) ^ 250 ≤ 0) := not_le.mpr (by positivity)
  simp [difficulty_to_target, spec_share_target, hfl, h0]

/-- C5 amended: for positive difficulty the code applies to the truncated
float quotient `q = int(DIFF1_TARGET / difficulty)` a clamp from above to
`2^256 - 1` and nothing else.  Whatever value the IEEE-double division
produced: the returned target is at most `2^256 - 1`, it equals `q`
whenever `q < 2^256`, and it is at least `1` exactly when `q` is — in
particular it is `0`, not `1`, whenever the quotient truncates to `0`
(there is no lower clamp).  In the exact-division idealisation the positive
branch of `difficulty_to_target` is literally this clamp of the exact
floor. -/
theorem share_target_clamp_only :
    (∀ q : Nat, clamp_target q ≤ 2 ^ 256 - 1 ∧
      (q < 2 ^ 256 → clamp_target q = q) ∧
      (1 ≤ clamp_target q ↔ 1 ≤ q)) ∧
    (∀ d : ℚ, 0 < d →
      difficulty_to_target d
        = clamp_target ((⌊(DIFF1_TARGET : ℚ) / d⌋).toNat)) := by
  constructor
  · intro q
    unfold clamp_target
    split_ifs <;> omega
  · intro d hd
    simp only [difficulty_to_target, clamp_target, if_neg (not_le.mpr hd)]

/-- Witness for C5 amended at `q = 5` and `d = 1`. -/
theorem share_target_clamp_only_witness :
    clamp_target 5 ≤ 2 ^ 256 - 1 ∧ (5 : Nat) < 2 ^ 256 ∧ clamp_target 5 = 5 ∧
    (1 ≤ clamp_target 5 ↔ 1 ≤ 5) ∧ (0 : ℚ) < 1 ∧
    difficulty_to_target 1 = clamp_target ((⌊(DIFF1_TARGET : ℚ) / 1⌋).toNat) :=
  ⟨(share_target_clamp_only.1 5).1, by norm_num,
   (share_target_clamp_only.1 5).2.1 (by norm_num),
   (share_target_clamp_only.1 5).2.2, by norm_num,
   share_target_clamp_only.2 1 (by norm_num)⟩

/-! ## C6 — worker nonce partitioning -/

/-- C6 counterexample: with `N = 2` threads, worker `i = 1` and random draw
`r = 0` (a draw `randint(0, partition_size)` can produce), the starting
cursor is `2147483647`, which does NOT lie in the claimed interval
`[1·⌊2^32/2⌋, 2·⌊2^32/2⌋)` — the code divides `0xFFFFFFFF`, not `2^32`,
by the thread count. -/
theorem nonce_start_outside_claimed_range :
    ¬ (1 * (2 ^ 32 / 2) ≤ nonce_start 2 1 0 ∧
       nonce_start 2 1 0 < 2 * (2 ^ 32 / 2)) := by decide

/-- C6 amended: with `partition_size = ⌊(2^32 - 1) / N⌋` and the random
draw `r` inclusive of `partition_size` (Python's `randint`), worker `i`'s
starting cursor is exactly `r + i·partition_size` (no wrap occurs) and lies
in the closed interval `[i·partition_size, (i+1)·partition_size]`. -/
theorem nonce_start_partition (N i r : Nat) (_hN : 0 < N) (hi : i < N)
    (hr : r ≤ partition_size N) :
    nonce_start N i r = r + i * partition_size N ∧
    i * partition_size N ≤ nonce_start N i r ∧
    nonce_start N i r ≤ (i + 1) * partition_size N := by
  have hmul : partition_size N * N ≤ 4294967295 := Nat.div_mul_le_self _ _
  have hmul' : N * partition_size N ≤ 4294967295 := by
    rw [Nat.mul_comm]; exact hmul
  have hstep : (i + 1) * partition_size N ≤ N * partition_size N :=
    Nat.mul_le_mul_right _ hi
  have hub : r + i * partition_size N ≤ (i + 1) * partition_size N := by
    have hs := Nat.succ_mul i (partition_size N)
    linarith
  have hlt : r + i * partition_size N < 4294967296 := by linarith
  refine ⟨?_, ?_, ?_⟩
  · unfold nonce_start
    exact Nat.mod_eq_of_lt hlt
  · unfold nonce_start
    rw [Nat.mod_eq_of_lt hlt]
    exact Nat.le_add_left _ _
  · unfold nonce_start
    rw [Nat.mod_eq_of_lt hlt]
    exact hub

/-- Witness for C6 amended at `N = 2`, `i = 1`, `r = 0`. -/
theorem nonce_start_partition_witness :
    0 < 2 ∧ 1 < 2 ∧ 0 ≤ partition_size 2 ∧
    (nonce_start 2 1 0 = 0 + 1 * partition_size 2 ∧
     1 * partition_size 2 ≤ nonce_start 2 1 0 ∧
     nonce_start 2 1 0 ≤ (1 + 1) * partition_size 2) :=
  ⟨by decide, by decide, by decide,
   nonce_start_partition 2 1 0 (by decide) (by decide) (by decide)⟩

/-! ## C7 — engine share counters -/

theorem counters_balance_step (s : Counters) (e : CounterEv)
    (he : e ≠ CounterEv.reset)
    (h : s.shares_accepted + s.shares_rejected + s.pending_submits
          = s.shares_submitted) :
    (counterStep s e).shares_accepted + (counterStep s e).shares_rejected
        + (counterStep s e).pending_submits
      = (counterStep s e).shares_submitted := by
  cases e with
  | reset => exact absurd rfl he
  | submit => simp [counterStep]; omega
  | result accepted =>
      simp only [counterStep]
      split_ifs <;> simp_all <;> omega

theorem counters_balance_run (evs : List CounterEv)
    (hres : CounterEv.reset ∉ evs) :
    (runCounters evs).shares_accepted + (runCounters evs).shares_rejected
        + (runCounters evs).pending_submits
      = (runCounters evs).shares_submitted := by
  suffices h : ∀ (l : List CounterEv) (s : Counters),
      CounterEv.reset ∉ l →
      s.shares_accepted + s.shares_rejected + s.pending_submits
        = s.shares_submitted →
      (l.foldl counterStep s).shares_accepted
          + (l.foldl counterStep s).shares_rejected
          + (l.foldl counterStep s).pending_submits
        = (l.foldl counterStep s).shares_submitted by
    exact h evs ⟨0, 0, 0, 0⟩ hres rfl
  intro l
  induction l with
  | nil => intro s _ hs; exact hs
  | cons e t ih =>
      intro s hl hs
      have he : e ≠ CounterEv.reset := fun hcontra => hl (hcontra ▸ List.mem_cons_self e t)
      have ht : CounterEv.reset ∉ t := fun hcontra => hl (List.mem_cons_of_mem e hcontra)
      exact ih (counterStep s e) ht (counters_balance_step s e he hs)

/-- C7 counterexample: the counter reset in `start()` is itself one of the
engine steps, and it decreases `shares_submitted`: after a submission,
a reset takes `shares_submitted` from 1 back to 0, so `shares_submitted`
is not non-decreasing across every pair of successive states. -/
theorem shares_submitted_reset_decreases :
    (runCounters [CounterEv.submit, CounterEv.reset]).shares_submitted
      < (runCounters [CounterEv.submit]).shares_submitted := by decide

/-- C7 amended: `shares_submitted` is non-decreasing across submission and
share-result steps (the reset in `start()` sets it back to zero); within a
single session — a run from the freshly created engine containing no
counter reset — `shares_accepted + shares_rejected ≤ shares_submitted`;
and the inequality is NOT preserved across a reset: because `start()` never
joins the previous `StratumClient`'s receive thread or clears its pending
table, a stale submit response delivered after the reset is still counted,
and the trace submit → reset → result drives
`shares_accepted + shares_rejected` above `shares_submitted`. -/
theorem counters_invariant :
    (∀ (s : Counters) (e : CounterEv), e ≠ CounterEv.reset →
      s.shares_submitted ≤ (counterStep s e).shares_submitted) ∧
    (∀ evs : List CounterEv, CounterEv.reset ∉ evs →
      (runCounters evs).shares_accepted + (runCounters evs).shares_rejected
        ≤ (runCounters evs).shares_submitted) ∧
    ¬ ((runCounters [CounterEv.submit, CounterEv.reset,
          CounterEv.result true]).shares_accepted
        + (runCounters [CounterEv.submit, CounterEv.reset,
            CounterEv.result true]).shares_rejected
      ≤ (runCounters [CounterEv.submit, CounterEv.reset,
          CounterEv.result true]).shares_submitted) := by
  refine ⟨?_, ?_, by decide⟩
  · intro s e he
    cases e with
    | reset => exact absurd rfl he
    | submit => simp [counterStep]
    | result accepted =>
        simp only [counterStep]
        split_ifs <;> simp_all
  · intro evs hres
    have h := counters_balance_run evs hres
    omega

/-- Witness for C7 amended: a submit step from a concrete state, and the
reachable reset-free state after a submit and an accepted result. -/
theorem counters_invariant_witness :
    CounterEv.submit ≠ CounterEv.reset ∧
    (⟨3, 1, 1, 1⟩ : Counters).shares_submitted
      ≤ (counterStep ⟨3, 1, 1, 1⟩ CounterEv.submit).shares_submitted ∧
    CounterEv.reset ∉ [CounterEv.submit, CounterEv.result true] ∧
    ((runCounters [CounterEv.submit, CounterEv.result true]).shares_accepted
        + (runCounters [CounterEv.submit, CounterEv.result true]).shares_rejected
      ≤ (runCounters [CounterEv.submit, CounterEv.result true]).shares_submitted) :=
  ⟨by decide,
   counters_invariant.1 ⟨3, 1, 1, 1⟩ CounterEv.submit (by decide),
   by decide,
   counters_invariant.2.1 [CounterEv.submit, CounterEv.result true] (by decide)⟩

/-! ## C8 — short `mining.notify` handling -/

/-- C8 counterexample: a `mining.notify` with 5 params whose fifth entry is
`null` is NOT skipped with state unchanged: the pre-`try` log line computes
`len(params[4])`, which raises `TypeError` on a value without `len()`; the
exception escapes to the receive loop, which answers it with
`_handle_disconnect()` (modelled as the `none` outcome), so the claim's
universal log-skip-and-remain-on-previous-job behaviour fails here. -/
theorem short_notify_branch_log_raises :
    ([JVal.null, JVal.null, JVal.null, JVal.null, JVal.null] :
        List JVal).length < 8 ∧
    handle_mining_notify ⟨some [], 4, 1, false, 0⟩ none
        [JVal.null, JVal.null, JVal.null, JVal.null, JVal.null] = none ∧
    handle_mining_notify ⟨some [], 4, 1, false, 0⟩ none
        [JVal.null, JVal.null, JVal.null, JVal.null, JVal.null]
      ≠ some (⟨some [], 4, 1, false, 0⟩, none) := by
  refine ⟨by decide, rfl, ?_⟩
  intro h
  exact Option.noConfusion h

/-- C8 amended: a `mining.notify` whose params array has fewer than 8
entries is logged and skipped — session state unchanged, `on_job` never
fired, the engine keeps its previous job — provided the params list has at
most 4 entries or its fifth entry supports `len()` (a string or an array).
When there are 5 to 7 params and the fifth entry is a number, boolean or
`null`, the pre-`try` branch-count logging raises `TypeError` and the
receive loop disconnects instead. -/
theorem short_notify_skipped (s : Session) (cur : Option StratumJob)
    (params : List JVal) (h : params.length < 8)
    (hlen : params.length ≤ 4 ∨ hasLen (params.getD 4 JVal.null) = true) :
    handle_mining_notify s cur params = some (s, cur) := by
  unfold handle_mining_notify
  have hcond : ¬ (4 < params.length ∧
      hasLen (params.getD 4 JVal.null) = false) := by
    rcases hlen with h4 | hl
    · intro hc
      omega
    · intro hc
      rw [hl] at hc
      exact Bool.noConfusion hc.2
  rw [if_neg hcond]
  cases s.extranonce1 with
  | none => rfl
  | some en1 => simp [StratumJob.mk?, h]

/-- Witness for C8 amended on an empty params array. -/
theorem short_notify_skipped_witness :
    ([] : List JVal).length < 8 ∧
    (([] : List JVal).length ≤ 4 ∨
      hasLen (([] : List JVal).getD 4 JVal.null) = true) ∧
    handle_mining_notify ⟨some [], 4, 1, false, 0⟩ none []
      = some (⟨some [], 4, 1, false, 0⟩, none) :=
  ⟨by decide, Or.inl (by decide),
   short_notify_skipped _ _ _ (by decide) (Or.inl (by decide))⟩

/-! ## C1 — mine_range_cpu returns only in-range winners -/

theorem cpuSearch_sound (header : List Nat) (target base : Nat) :
    ∀ (fuel n nonce idx : Nat),
      cpuSearch header target base n fuel = some (nonce, idx) →
      n ≤ idx ∧ idx < n + fuel ∧ nonce = (base + idx) % 4294967296 ∧
        leNat (sha256d (header.take 76 ++ pack32le nonce)) < target := by
  intro fuel
  induction fuel with
  | zero =>
      intro n nonce idx h
      simp [cpuSearch] at h
  | succ k ih =>
      intro n nonce idx h
      simp only [cpuSearch] at h
      split_ifs at h with hc
      · rw [Option.some.injEq, Prod.mk.injEq] at h
        obtain ⟨h1, h2⟩ := h
        subst h2
        subst h1
        exact ⟨Nat.le_refl _, by omega, rfl, hc⟩
      · obtain ⟨ha, hb, hcc, hd⟩ := ih (n + 1) nonce idx h
        exact ⟨by omega, by omega, hcc, hd⟩

/-- C1: for every 80-byte header, target, base nonce and count,
`mine_range_cpu` returns `none` or a nonce of the form
`(base + k) mod 2^32` with `k < count` — a u32 in `[base, base+count) mod
2^32` — whose double SHA-256, read as a little-endian uint256, is strictly
below the target. -/
theorem mine_range_cpu_sound (st : MinerState) (header : List Nat)
    (target base count nonce : Nat) (_h80 : header.length = 80)
    (h : (mine_range_cpu st header target base count).1 = some nonce) :
    ∃ k, k < count ∧ nonce = (base + k) % 4294967296 ∧ nonce < 4294967296 ∧
      leNat (sha256d (header.take 76 ++ pack32le nonce)) < target := by
  unfold mine_range_cpu at h
  cases hs : cpuSearch header target base 0 count with
  | none => rw [hs] at h; simp at h
  | some p =>
      obtain ⟨nn, ii⟩ := p
      rw [hs] at h
      simp at h
      subst h
      obtain ⟨h1, h2, h3, h4⟩ := cpuSearch_sound header target base count 0 nn ii hs
      exact ⟨ii, by omega, h3, by omega, h4⟩

set_option maxRecDepth 100000 in
/-- Witness for C1: the all-zero header against the accept-everything
target over the range `[0, 1)` yields the winner `0` (spec scenario 3). -/
theorem mine_range_cpu_sound_witness :
    (List.replicate 80 0).length = 80 ∧
    (mine_range_cpu ⟨0, 0⟩ (List.replicate 80 0) (2 ^ 256 - 1) 0 1).1 = some 0 ∧
    ∃ k, k < 1 ∧ (0 : Nat) = (0 + k) % 4294967296 ∧ (0 : Nat) < 4294967296 ∧
      leNat (sha256d ((List.replicate 80 0).take 76 ++ pack32le 0)) < 2 ^ 256 - 1 :=
  ⟨by decide, by decide,
   mine_range_cpu_sound ⟨0, 0⟩ (List.replicate 80 0) (2 ^ 256 - 1) 0 1 0
     (by decide) (by decide)⟩

/-! ## C3 — best_share_bits tracking -/

theorem foldl_max_init (l : List Nat) : ∀ a : Nat, a ≤ l.foldl max a := by
  induction l with
  | nil => intro a; simp
  | cons b t ih =>
      intro a
      exact le_trans (le_max_left a b) (ih (max a b))

theorem foldl_max_mem (l : List Nat) : ∀ (a x : Nat), x ∈ l → x ≤ l.foldl max a := by
  induction l with
  | nil => intro a x hx; simp at hx
  | cons b t ih =>
      intro a x hx
      rcases List.mem_cons.mp hx with h | h
      · subst h
        exact le_trans (le_max_right a x) (foldl_max_init t _)
      · exact ih _ _ h

set_option maxRecDepth 100000 in
/-- C3 counterexample: `mine_range_cpu` does not track `best_share_bits` at
all.  Sweeping nonce `0` of the all-zero header (against target `0`, so the
nonce is evaluated but is no winner) leaves `best_share_bits` at `0`,
strictly below the `3` leading zero bits of that nonce's LE hash — refuting
the claim that after any `mine_range_cpu` call `best_share_bits` bounds the
leading-zero count of every evaluated nonce. -/
theorem mine_range_cpu_ignores_best_share_bits :
    ((mine_range_cpu ⟨0, 0⟩ (List.replicate 80 0) 0 0 1).2).best_share_bits
      < hashLZ (sha256d ((List.replicate 80 0).take 76 ++ pack32le 0)) := by
  decide

/-- C3 amended: only the GPU path tracks best shares.  After
`mine_range_gpu`, `best_share_bits` is at least the leading-zero-bit count
of the LE hash of every nonce word evaluated in that dispatch and at least
its previous value; `mine_range_cpu` leaves `best_share_bits` unchanged, so
the CPU and GPU paths do not agree on it. -/
theorem best_share_bits_tracking :
    (∀ (st : MinerState) (header : List Nat) (base count gid : Nat),
      gid < min count (4294967296 - base % 4294967296) →
      hashLZ (sha256d (header.take 76
          ++ pack32be ((base % 4294967296 + gid) % 4294967296)))
        ≤ mine_range_gpu_best st header base count ∧
      st.best_share_bits ≤ mine_range_gpu_best st header base count) ∧
    (∀ (st : MinerState) (header : List Nat) (target base count : Nat),
      ((mine_range_cpu st header target base count).2).best_share_bits
        = st.best_share_bits) := by
  constructor
  · intro st header base count gid hgid
    have hmem : hashLZ (sha256d (header.take 76
        ++ pack32be ((base % 4294967296 + gid) % 4294967296)))
        ∈ (List.range (min count (4294967296 - base % 4294967296))).map
            (fun g => hashLZ (sha256d (header.take 76
              ++ pack32be ((base % 4294967296 + g) % 4294967296)))) :=
      List.mem_map_of_mem _ (List.mem_range.mpr hgid)
    have hle := foldl_max_mem _ 0 _ hmem
    simp only [mine_range_gpu_best]
    constructor
    · split_ifs with hbest
      · exact hle
      · exact le_trans hle (not_lt.mp hbest)
    · split_ifs with hbest
      · exact le_of_lt hbest
      · exact Nat.le_refl _
  · intro st header target base count
    unfold mine_range_cpu
    cases cpuSearch header target base 0 count with
    | none => rfl
    | some p => rfl

set_option maxRecDepth 100000 in
/-- Witness for C3 amended: GPU dispatch of the single nonce word `0` of
the all-zero header, from a state with `best_share_bits = 5`, and a CPU
call from the same state. -/
theorem best_share_bits_tracking_witness :
    (0 < min 1 (4294967296 - 0 % 4294967296)) ∧
    (hashLZ (sha256d ((List.replicate 80 0).take 76
        ++ pack32be ((0 % 4294967296 + 0) % 4294967296)))
      ≤ mine_range_gpu_best ⟨0, 5⟩ (List.replicate 80 0) 0 1 ∧
     (⟨0, 5⟩ : MinerState).best_share_bits
      ≤ mine_range_gpu_best ⟨0, 5⟩ (List.replicate 80 0) 0 1) ∧
    ((mine_range_cpu ⟨0, 5⟩ (List.replicate 80 0) 0 0 1).2).best_share_bits
      = (⟨0, 5⟩ : MinerState).best_share_bits :=
  ⟨by decide,
   best_share_bits_tracking.1 ⟨0, 5⟩ (List.replicate 80 0) 0 1 0 (by decide),
   best_share_bits_tracking.2 ⟨0, 5⟩ (List.replicate 80 0) 0 0 1⟩

/-! ## C9 — the header length assertion -/

theorem hexPairs?_length : ∀ (l : List Char) (bs : List Nat),
    hexPairs? l = some bs → l.length = 2 * bs.length
  | [], bs, h => by
      simp only [hexPairs?, Option.some.injEq] at h
      subst h
      rfl
  | [_], bs, h => by simp [hexPairs?] at h
  | a :: b :: rest, bs, h => by
      simp only [hexPairs?] at h
      cases hA : hexDigitVal? a with
      | none => rw [hA] at h; simp at h
      | some da =>
          cases hB : hexDigitVal? b with
          | none => rw [hA, hB] at h; simp at h
          | some db =>
              cases hR : hexPairs? rest with
              | none => rw [hA, hB, hR] at h; simp at h
              | some r =>
                  rw [hA, hB, hR] at h
                  simp only [Option.some.injEq] at h
                  subst h
                  have := hexPairs?_length rest r hR
                  simp only [List.length_cons]
                  omega

theorem prevFixAux_length : ∀ (n : Nat) (l : List Nat), 4 * n ≤ l.length →
    (prevFixAux n l).length = 4 * n := by
  intro n
  induction n with
  | zero => intro l _; simp [prevFixAux]
  | succ k ih =>
      intro l h
      have hd : 4 * k ≤ (l.drop 4).length := by
        simp [List.length_drop]
        omega
      simp [prevFixAux, List.length_append, List.length_reverse,
        List.length_take, ih (l.drop 4) hd]
      omega

/-- C9: whenever `prevhash` and `merkle_root` are exactly 64 hex characters
and `version`, `ntime`, `nbits` parse to values below `2^32` and
`nonce < 2^32`, `build_block_header` succeeds (its `assert len(header) ==
80` holds) and returns exactly 80 bytes. -/
theorem build_block_header_total
    (version prevhash merkle_root ntime nbits : List Char)
    (nonce v t b : Nat) (pb mb : List Nat)
    (hv : parseHexNat? version = some v) (hv32 : v < 4294967296)
    (hp : hexPairs? prevhash = some pb) (hpl : prevhash.length = 64)
    (hm : hexPairs? merkle_root = some mb) (hml : merkle_root.length = 64)
    (ht : parseHexNat? ntime = some t) (ht32 : t < 4294967296)
    (hb : parseHexNat? nbits = some b) (hb32 : b < 4294967296)
    (hn : nonce < 4294967296) :
    ∃ hdr, build_block_header version prevhash merkle_root ntime nbits nonce
        = some hdr ∧ hdr.length = 80 := by
  have hpb : pb.length = 32 := by
    have := hexPairs?_length prevhash pb hp
    omega
  have hmb : mb.length = 32 := by
    have := hexPairs?_length merkle_root mb hm
    omega
  have hfix : (prevFix pb).length = 32 := by
    unfold prevFix
    rw [prevFixAux_length 8 pb (by omega)]
  have hlen : (pack32le v ++ prevFix pb ++ mb ++ pack32le t ++ pack32le b
      ++ pack32le nonce).length = 80 := by
    simp [List.length_append, pack32le, hfix, hmb]
  refine ⟨pack32le v ++ prevFix pb ++ mb ++ pack32le t ++ pack32le b
      ++ pack32le nonce, ?_, hlen⟩
  simp [build_block_header, hv, hp, hm, ht, hb, pack32le?, hv32, ht32, hb32,
    hn, pack32le, hfix, hmb]

set_option maxRecDepth 100000 in
/-- Witness for C9 on the known-vector inputs. -/
theorem build_block_header_total_witness :
    parseHexNat? (toHexChars [0, 0, 0, 2]) = some 2 ∧
    hexPairs? (toHexChars (List.replicate 32 0))
      = some (List.replicate 32 0) ∧
    (toHexChars (List.replicate 32 0)).length = 64 ∧
    ∃ hdr, build_block_header (toHexChars [0, 0, 0, 2])
        (toHexChars (List.replicate 32 0))
        (toHexChars (List.replicate 32 17))
        (toHexChars [95, 94, 16, 15]) (toHexChars [29, 0, 255, 255]) 48879
      = some hdr ∧ hdr.length = 80 :=
  ⟨by decide, by decide, by decide,
   build_block_header_total (toHexChars [0, 0, 0, 2])
     (toHexChars (List.replicate 32 0)) (toHexChars (List.replicate 32 17))
     (toHexChars [95, 94, 16, 15]) (toHexChars [29, 0, 255, 255]) 48879
     2 1600000015 486604799 (List.replicate 32 0) (List.replicate 32 17)
     (by decide) (by decide) (by decide) (by decide) (by decide) (by decide)
     (by decide) (by decide) (by decide) (by decide) (by decide)⟩

/-! ## C4 — compute_merkle_root implements the coinbase/branch fold -/

theorem hexDigitVal?_hexChar : ∀ d : Nat, d < 16 →
    hexDigitVal? (hexChar d) = some d := by decide

theorem toHexChars_cons (b : Nat) (t : List Nat) :
    toHexChars (b :: t)
      = hexChar (b / 16) :: hexChar (b % 16) :: toHexChars t := by
  simp [toHexChars]

theorem hexPairs?_toHexChars : ∀ (l : List Nat), (∀ x ∈ l, x < 256) →
    hexPairs? (toHexChars l) = some l := by
  intro l
  induction l with
  | nil => intro _; simp [toHexChars, hexPairs?]
  | cons b t ih =>
      intro h
      have hb : b < 256 := h b (by simp)
      have ht : ∀ x ∈ t, x < 256 := fun x hx => h x (by simp [hx])
      rw [toHexChars_cons]
      simp only [hexPairs?, hexDigitVal?_hexChar (b / 16) (by omega),
        hexDigitVal?_hexChar (b % 16) (by omega), ih ht]
      have hsplit : 16 * (b / 16) + b % 16 = b := by omega
      simp [hsplit]

theorem toHexChars_append (l1 l2 : List Nat) :
    toHexChars (l1 ++ l2) = toHexChars l1 ++ toHexChars l2 := by
  simp [toHexChars]

theorem merkleFold_map (branch : List (List Nat)) : ∀ cur : List Nat,
    (∀ bl ∈ branch, ∀ x ∈ bl, x < 256) →
    merkleFold cur (branch.map toHexChars)
      = some (branch.foldl (fun h b => sha256d (h ++ b)) cur) := by
  induction branch with
  | nil => intro cur _; simp [merkleFold]
  | cons bl t ih =>
      intro cur h
      have h1 : ∀ x ∈ bl, x < 256 := h bl (by simp)
      have h2 : ∀ b ∈ t, ∀ x ∈ b, x < 256 := fun b hb x hx =>
        h b (by simp [hb]) x hx
      simp only [List.map_cons, merkleFold, hexPairs?_toHexChars bl h1,
        List.foldl_cons]
      exact ih (sha256d (cur ++ bl)) h2

/-- C4: `compute_merkle_root` double-SHA-256-hashes the coinbase
`coinb1 ‖ extranonce1 ‖ extranonce2 ‖ coinb2` and then folds
`h ↦ SHA256d(h ‖ b)` over the merkle branch in order; with an empty branch
it returns `SHA256d(coinb1 ‖ extranonce1 ‖ extranonce2 ‖ coinb2)` itself
(as lowercase hex of the 32-byte digest). -/
theorem compute_merkle_root_correct (b1 e1 e2 b2 : List Nat)
    (branch : List (List Nat))
    (hcb : ∀ x ∈ b1 ++ e1 ++ e2 ++ b2, x < 256)
    (hbr : ∀ bl ∈ branch, ∀ x ∈ bl, x < 256) :
    compute_merkle_root (toHexChars b1) (toHexChars b2) (toHexChars e1)
        (toHexChars e2) (branch.map toHexChars)
      = some (toHexChars (branch.foldl (fun h b => sha256d (h ++ b))
          (sha256d (b1 ++ e1 ++ e2 ++ b2)))) := by
  have hcat : toHexChars b1 ++ toHexChars e1 ++ toHexChars e2 ++ toHexChars b2
      = toHexChars (b1 ++ e1 ++ e2 ++ b2) := by
    simp [toHexChars_append]
  simp only [compute_merkle_root, hcat, hexPairs?_toHexChars _ hcb,
    merkleFold_map branch _ hbr, Option.bind_eq_bind, Option.some_bind]
  rfl

set_option maxRecDepth 100000 in
/-- Witness for C4 on spec scenario 2: `coinb1 = "01"`, `coinb2 = "02"`,
`extranonce1 = "03"`, `extranonce2 = "04"`, empty branch. -/
theorem compute_merkle_root_correct_witness :
    (∀ x ∈ ([1] ++ [3] ++ [4] ++ [2] : List Nat), x < 256) ∧
    (∀ bl ∈ ([] : List (List Nat)), ∀ x ∈ bl, x < 256) ∧
    compute_merkle_root (toHexChars [1]) (toHexChars [2]) (toHexChars [3])
        (toHexChars [4]) (List.map toHexChars [])
      = some (toHexChars (List.foldl (fun h b => sha256d (h ++ b))
          (sha256d ([1] ++ [3] ++ [4] ++ [2])) [])) :=
  ⟨by decide, by decide,
   compute_merkle_root_correct [1] [3] [4] [2] [] (by decide) (by decide)⟩

end SoloMiner
